import Mathlib

/-!
Verification of the multi-strategy retrieval and graph-filtering engine of a
multimodal RAG system.  The definitions below are a shallow embedding of the
Python sources:

* `src/graph/neo4j_client.py`   — property flattening, entity lookup, traversal
* `src/search/hybrid_search.py` — hybrid orchestration, graph strategy, filter, fusion
* `src/search/graph_search.py`  — standalone graph searcher with capitalization heuristic
* `src/search/keyword_search.py`— BM25 keyword searcher (scores supplied by the
  external `rank_bm25` library, modelled as an input list)
* `src/models.py`               — `SearchResult` with pydantic score validation

Scores and weights are Python floats; they are modelled as exact rationals (ℚ),
so statements that the spec phrases "within floating-point tolerance" become
exact equalities.  Chunk/entity identifiers are modelled as the strings the code
compares (`str(result.id)` etc.).  Python dicts are modelled as insertion-ordered
association lists with replace-in-place update, matching CPython semantics.
-/

namespace MMRag

/-- Projection of `models.SearchResult` (pydantic model).  The fields `metadata`
and `entities` play no role in any verified property and are omitted;
`id` stands for the string form `str(result.id)` used throughout the search
code. -/
structure SR where
  id : String
  content : String
  score : ℚ
  modality : String
  source : String
deriving DecidableEq, Repr

/-- A stored chunk record: the common shape of the chunks indexed by the
keyword searcher and of the payloads stored in the vector store
(`qdrant_client.py`), as far as the verified properties are concerned. -/
structure ChunkRec where
  id : String
  content : String
  modality : String
deriving DecidableEq, Repr

/-! ### Python dict as an insertion-ordered association list -/

/-- `d[k] = v` on a CPython dict: if the key is present its value is replaced
in place (position preserved), otherwise the binding is appended. -/
def dictInsert (m : List (String × α)) (k : String) (v : α) : List (String × α) :=
  if m.any (fun kv => kv.1 == k) then
    m.map (fun kv => if kv.1 == k then (k, v) else kv)
  else
    m ++ [(k, v)]

/-- `d.get(k)` / `k in d` on a CPython dict. -/
def dictFind (m : List (String × α)) (k : String) : Option α :=
  (m.find? (fun kv => kv.1 == k)).map (·.2)

/-- Keys of an association-list dict, in insertion order. -/
def dictKeys (m : List (String × α)) : List String := m.map (·.1)

/-- Well-formedness of the fusion map `result_scores`: every stored
`SearchResult` sits under its own chunk id as key. -/
def goodMap (m : List (String × (SR × ℚ))) : Prop :=
  ∀ kv ∈ m, (kv.2.1).id = kv.1

/-! ### Property flattening (`Neo4jClient._flatten_properties`) -/

/-- JSON-like property values, the value shape produced by the extraction
subsystem and consumed by `_flatten_properties`.  `vFloat` models Python
floats as exact rationals. -/
inductive PropValue where
  | vNull : PropValue
  | vBool : Bool → PropValue
  | vInt : Int → PropValue
  | vFloat : ℚ → PropValue
  | vStr : String → PropValue
  | vList : List PropValue → PropValue
  | vDict : List (String × PropValue) → PropValue

/-- `isinstance(value, (str, int, float, bool))`. -/
def PropValue.isScalar : PropValue → Bool
  | .vBool _ => true
  | .vInt _ => true
  | .vFloat _ => true
  | .vStr _ => true
  | _ => false

/-- A JSON string literal (escaping only the characters relevant to the model). -/
def jsonQuote (s : String) : String :=
  "\"" ++ s ++ "\""

mutual

/-- `json.dumps` with default separators, deterministic by construction. -/
def jsonDumps : PropValue → String
  | .vNull => "null"
  | .vBool true => "true"
  | .vBool false => "false"
  | .vInt n => toString n
  | .vFloat q => toString q
  | .vStr s => jsonQuote s
  | .vList items => "[" ++ jsonDumpsItems items ++ "]"
  | .vDict entries => "\x7b" ++ jsonDumpsEntries entries ++ "\x7d"

/-- Comma-separated rendering of a JSON array body. -/
def jsonDumpsItems : List PropValue → String
  | [] => ""
  | [v] => jsonDumps v
  | v :: vs => jsonDumps v ++ ", " ++ jsonDumpsItems vs

/-- Comma-separated rendering of a JSON object body. -/
def jsonDumpsEntries : List (String × PropValue) → String
  | [] => ""
  | [(k, v)] => jsonQuote k ++ ": " ++ jsonDumps v
  | (k, v) :: kvs => jsonQuote k ++ ": " ++ jsonDumps v ++ ", " ++ jsonDumpsEntries kvs

end

/-- One value's treatment inside `Neo4jClient._flatten_properties`:
`None` is dropped, scalars are kept, all-scalar lists are kept,
anything else is serialized to a string. -/
def flattenValue : PropValue → Option PropValue
  | .vNull => none
  | .vBool b => some (.vBool b)
  | .vInt n => some (.vInt n)
  | .vFloat q => some (.vFloat q)
  | .vStr s => some (.vStr s)
  | .vList items =>
    if items.all PropValue.isScalar then some (.vList items)
    else some (.vStr (jsonDumps (.vList items)))
  | .vDict entries => some (.vStr (jsonDumps (.vDict entries)))

/-- `Neo4jClient._flatten_properties`: iterate the property map in insertion
order, dropping `None` values and flattening the rest. -/
def flattenProperties (props : List (String × PropValue)) : List (String × PropValue) :=
  props.filterMap (fun kv => (flattenValue kv.2).map (fun v => (kv.1, v)))

/-! ### Weight normalization (`HybridSearchEngine.__init__`) -/

/-- The weight normalization performed by `HybridSearchEngine.__init__`:
`total = graph + keyword + vector`; each weight is divided by `total`.
In Python a zero float total raises `ZeroDivisionError`, modelled as an
`Except.error`.  Returns `(graph_weight, keyword_weight, vector_weight)`. -/
def hybridInit (graphWeight keywordWeight vectorWeight : ℚ) : Except String (ℚ × ℚ × ℚ) :=
  let total := graphWeight + keywordWeight + vectorWeight
  if total = 0 then .error "ZeroDivisionError"
  else .ok (graphWeight / total, keywordWeight / total, vectorWeight / total)

/-! ### Graph filter (`HybridSearchEngine._apply_graph_filter` and its call site) -/

/-- `HybridSearchEngine._apply_graph_filter`: keep only the vector results
whose chunk id occurs among the graph results' chunk ids. -/
def applyGraphFilter (vectorResults graphResults : List SR) : List SR :=
  let graphChunkIds := graphResults.map (·.id)
  vectorResults.filter (fun r => graphChunkIds.contains r.id)

/-- Step 3 of `HybridSearchEngine.search`: the filter is applied only when
graph filtering is enabled and the graph results are non-empty. -/
def graphFilterStep (useGraphFilter : Bool) (vectorResults graphResults : List SR) : List SR :=
  if useGraphFilter && !graphResults.isEmpty then
    applyGraphFilter vectorResults graphResults
  else
    vectorResults

/-! ### Stable sort (Python `sorted`) -/

/-- Insert `a` before the first element it is `le`-related to.  Inserting the
originally-earlier element in front of `le`-ties makes the sort stable. -/
def insertSorted (le : α → α → Bool) (a : α) : List α → List α
  | [] => [a]
  | b :: t => if le a b then a :: b :: t else b :: insertSorted le a t

/-- Python's `sorted` / `list.sort` is a stable sort; a stable sort's output
is uniquely determined by the comparator, so this structurally recursive
stable insertion sort is an exact model of it (with `le a b` meaning "`a` may
be placed before `b`"; descending order uses `le a b := b.key ≤ a.key`). -/
def pySorted (le : α → α → Bool) : List α → List α
  | [] => []
  | a :: t => insertSorted le a (pySorted le t)

/-! ### Rank fusion (`HybridSearchEngine._fuse_results`) -/

/-- The map `result_scores : Dict[str, tuple]` of `_fuse_results`: chunk id to
the pair (stored `SearchResult`, accumulated weighted score). -/
abbrev ScoreMap := List (String × (SR × ℚ))

/-- First loop of `_fuse_results` (vector results): unconditional assignment
`result_scores[result_id] = (result, result.score * vector_weight)`. -/
def addVectorResults (vectorWeight : ℚ) (m : ScoreMap) (results : List SR) : ScoreMap :=
  results.foldl (fun m r => dictInsert m r.id (r, r.score * vectorWeight)) m

/-- Second loop of `_fuse_results` (graph results): sum into an existing entry,
tagging `source` with `"+graph"` when the two sources differ; otherwise insert. -/
def addGraphResults (graphWeight : ℚ) (m : ScoreMap) (results : List SR) : ScoreMap :=
  results.foldl
    (fun m r =>
      match dictFind m r.id with
      | some (er, es) =>
        let er := if er.source ≠ r.source then { er with source := er.source ++ "+graph" } else er
        dictInsert m r.id (er, es + r.score * graphWeight)
      | none => dictInsert m r.id (r, r.score * graphWeight))
    m

/-- Third loop of `_fuse_results` (keyword results): sum into an existing entry
(the `source` field is left untouched by this loop); otherwise insert. -/
def addKeywordResults (keywordWeight : ℚ) (m : ScoreMap) (results : List SR) : ScoreMap :=
  results.foldl
    (fun m r =>
      match dictFind m r.id with
      | some (er, es) => dictInsert m r.id (er, es + r.score * keywordWeight)
      | none => dictInsert m r.id (r, r.score * keywordWeight))
    m

/-- `HybridSearchEngine._fuse_results`: accumulate the three strategies into
`result_scores`, sort the values by combined score descending (Python's
`sorted(..., reverse=True)` is stable, modelled by `pySorted`), then write the
combined score back into each result. -/
def fuseResults (vectorWeight graphWeight keywordWeight : ℚ)
    (vectorResults graphResults keywordResults : List SR) : List SR :=
  let m := addKeywordResults keywordWeight
    (addGraphResults graphWeight
      (addVectorResults vectorWeight [] vectorResults) graphResults) keywordResults
  let sorted := pySorted (fun a b => decide (b.2 ≤ a.2)) (m.map (·.2))
  sorted.map (fun p => { p.1 with score := p.2 })

/-- Result-set projections used to state fusion properties. -/
def strategyEntry (results : List SR) (x : String) : Option SR :=
  results.find? (fun r => r.id == x)

/-- Score of the entry for chunk id `x`, if any. -/
def entryScore (results : List SR) (x : String) : Option ℚ :=
  (strategyEntry results x).map (·.score)

/-- Source tag of the entry for chunk id `x`, if any. -/
def entrySource (results : List SR) (x : String) : Option String :=
  (strategyEntry results x).map (·.source)

/-! ### SearchResult validation and keyword search
(`models.SearchResult`, `KeywordSearcher.search`) -/

/-- Pydantic construction of `models.SearchResult`: the `score` field carries
`Field(ge=0.0, le=1.0)`, so construction raises a `ValidationError` for a score
outside `[0, 1]`. -/
def mkSearchResult (id content : String) (score : ℚ) (modality source : String) :
    Except String SR :=
  if score < 0 then .error "ValidationError: score less than 0"
  else if 1 < score then .error "ValidationError: score greater than 1"
  else .ok ⟨id, content, score, modality, source⟩

/-- `chunk.modality != modality_filter` skip test in `KeywordSearcher.search`. -/
def passesModality (modalityFilter : Option String) (c : ChunkRec) : Bool :=
  match modalityFilter with
  | some m => c.modality == m
  | none => true

/-- The result-building loop of `KeywordSearcher.search`: for each indexed chunk
and its BM25 score, skip filtered-out modalities and non-positive scores, and
build a `SearchResult` (whose construction can raise a `ValidationError`). -/
def keywordBuildResults (modalityFilter : Option String) :
    List (ChunkRec × ℚ) → Except String (List SR)
  | [] => .ok []
  | (chunk, score) :: rest =>
    if !passesModality modalityFilter chunk then
      keywordBuildResults modalityFilter rest
    else if 0 < score then do
      let r ← mkSearchResult chunk.id chunk.content score chunk.modality "keyword"
      let rs ← keywordBuildResults modalityFilter rest
      return r :: rs
    else
      keywordBuildResults modalityFilter rest

/-- `KeywordSearcher.search`: `scores` is the output of the external
`BM25Okapi.get_scores` (one score per indexed chunk, paired positionally).
Results are sorted by score descending (stable) and truncated to `top_k`.
A `ValidationError` raised while building a result propagates to the caller. -/
def keywordSearch (chunks : List ChunkRec) (scores : List ℚ) (topK : Nat)
    (modalityFilter : Option String) : Except String (List SR) := do
  if chunks.isEmpty then return []
  let results ← keywordBuildResults modalityFilter (chunks.zip scores)
  return (pySorted (fun a b => decide (b.score ≤ a.score)) results).take topK

/-! ### Tokenization helpers -/

/-- Single pass of Python `str.split()` accumulating the current word. -/
def splitWordsAux (cur : List Char) : List Char → List (List Char)
  | [] => if cur.isEmpty then [] else [cur]
  | c :: rest =>
    if c.isWhitespace then
      if cur.isEmpty then splitWordsAux [] rest
      else cur :: splitWordsAux [] rest
    else splitWordsAux (cur ++ [c]) rest

/-- Python `str.split()` with no argument: split on runs of whitespace,
discarding empty pieces.  Operates on the character list of the string. -/
def splitWords (cs : List Char) : List (List Char) := splitWordsAux [] cs

/-- Deduplication keeping first occurrences (a Python seen-set loop; also the
semantics of Cypher `DISTINCT` rows in the model). -/
def dedupFirstAux [DecidableEq α] (seen : List α) : List α → List α
  | [] => []
  | a :: rest =>
    if a ∈ seen then dedupFirstAux seen rest
    else a :: dedupFirstAux (a :: seen) rest

/-- Deduplicate keeping first occurrences, preserving order. -/
def dedupFirst [DecidableEq α] (l : List α) : List α := dedupFirstAux [] l

/-- The apostrophe character (used by the possessive-stripping regex). -/
def apos : Char := Char.ofNat 39

/-- Python regex word character (`\w`), ASCII interpretation. -/
def isWordChar (c : Char) : Bool := c.isAlphanum || c == '_'

/-- `re.sub(r"'s\b", "", text)` from `HybridSearchEngine._graph_search`:
scan left to right; wherever an apostrophe-`s` is followed by a word boundary,
drop those two characters; otherwise keep the character and advance. -/
def removePossessive : List Char → List Char
  | [] => []
  | [c] => [c]
  | c :: d :: rest2 =>
    if c = apos && d = 's' && (match rest2 with | [] => true | e :: _ => !isWordChar e) then
      removePossessive rest2
    else c :: removePossessive (d :: rest2)

/-! ### Capitalization heuristic (`GraphSearcher._extract_entity_names`) -/

/-- The skip list of `_extract_entity_names` (capitalized question words). -/
def skipWords : List (List Char) :=
  ["Who".data, "What".data, "Where".data, "When".data, "Why".data,
   "How".data, "Tell".data, "Show".data, "Find".data]

/-- `words[i] and words[i][0].isupper() and words[i] not in skip_words`. -/
def capCandidate (w : List Char) : Bool :=
  match w with
  | [] => false
  | c :: _ => c.isUpper && !skipWords.contains w

/-- Python `' '.join(entity_words)`. -/
def joinSpaces : List (List Char) → List Char
  | [] => []
  | [w] => w
  | w :: ws => w ++ ' ' :: joinSpaces ws

/-- Emission step for one run of consecutive capitalized words: a multi-word
run emits the joined run followed by its words of length > 2; a single-word
run emits the word only when its length is > 2. -/
def emitRun (run : List (List Char)) : List (List Char) :=
  if run.length > 1 then
    joinSpaces run :: run.filter (fun w => w.length > 2)
  else
    match run with
    | [w] => if w.length > 2 then [w] else []
    | _ => []

/-- The left-to-right scan of `_extract_entity_names`, with the current run
of consecutive capitalized words carried as an accumulator: a word extending
the run is appended; a word breaking a non-empty run causes the run to be
emitted; the breaking word itself is not a candidate and is skipped, exactly
as in the source's index-advancing loop. -/
def extractLoopAux (run : List (List Char)) : List (List Char) → List (List Char)
  | [] => if run.isEmpty then [] else emitRun run
  | w :: rest =>
    if capCandidate w then extractLoopAux (run ++ [w]) rest
    else if run.isEmpty then extractLoopAux [] rest
    else emitRun run ++ extractLoopAux [] rest

/-- The scan of `_extract_entity_names` over the word list. -/
def extractLoop (ws : List (List Char)) : List (List Char) := extractLoopAux [] ws

/-- `GraphSearcher._extract_entity_names`: split on whitespace, scan for runs
of capitalized words, then deduplicate preserving first-occurrence order. -/
def extractEntityNames (text : String) : List String :=
  (dedupFirst (extractLoop (splitWords text.data))).map (fun cs => String.mk cs)

/-- `GraphSearcher._search_from_entity`: the source is an explicit placeholder
that always returns the empty list. -/
def searchFromEntity (_entityName : String) : List SR := []

/-- `GraphSearcher._deduplicate_results`: keep the first result for each id. -/
def dedupResultsAux (seen : List String) : List SR → List SR
  | [] => []
  | r :: rest =>
    if seen.contains r.id then dedupResultsAux seen rest
    else r :: dedupResultsAux (r.id :: seen) rest

/-- `GraphSearcher.search` (`graph_search.py`): fall back to the
capitalization heuristic when no (or empty) explicit entity names are given;
return `[]` when no names remain; otherwise search from each name,
deduplicate, and truncate to `max_results`. -/
def graphSearcherSearch (maxResults : Nat) (text : String)
    (entityNames : Option (List String)) : List SR :=
  let names :=
    match entityNames with
    | some ns => if ns.isEmpty then extractEntityNames text else ns
    | none => extractEntityNames text
  if names.isEmpty then []
  else (dedupResultsAux [] (names.flatMap searchFromEntity)).take maxResults

/-! ### Candidate extraction of `HybridSearchEngine._graph_search` -/

/-- The stop-word set of `HybridSearchEngine._graph_search` (lower-case). -/
def hybridStopWords : List (List Char) :=
  ["what".data, "is".data, "the".data, "a".data, "an".data, "about".data,
   "how".data, "why".data, "when".data, "where".data, "who".data,
   "which".data, "their".data, "his".data, "her".data, "its".data,
   "our".data, "your".data, "my".data, "opinion".data, "view".data,
   "think".data, "thought".data, "idea".data, "belief".data]

/-- Python `str.lower()` on a character list (ASCII-faithful). -/
def pyLower (cs : List Char) : List Char := cs.map Char.toLower

/-- Cypher `hay CONTAINS pat`: contiguous substring containment. -/
def strContains (hay pat : List Char) : Bool :=
  pat.isPrefixOf hay ||
    match hay with
    | [] => false
    | _ :: t => strContains t pat

/-- Candidate entity names of `HybridSearchEngine._graph_search`: strip
possessives, split into words, prepend the full cleaned text, then keep
candidates of length > 2 whose lower-case form is not a stop word.  This is a
stop-word/length heuristic, not the capitalization heuristic of
`GraphSearcher._extract_entity_names`. -/
def hybridCandidates (text : String) : List String :=
  let cleaned := removePossessive text.data
  let queryWords := splitWords cleaned
  ((cleaned :: queryWords).filter
    (fun e => e.length > 2 && !hybridStopWords.contains (pyLower e))).map
    (fun cs => String.mk cs)

/-! ### Graph store (`Neo4jClient`) -/

/-- A graph entity node as stored by `Neo4jClient.add_entity`:
`source_id` is the chunk id the entity was extracted from (nullable). -/
structure GEntity where
  id : String
  name : String
  etype : String
  sourceId : Option String
deriving DecidableEq, Repr

/-- A relationship edge (its type label is irrelevant to the traversal
`-[*1..max_depth]-`, which matches any type in both directions). -/
structure GRel where
  srcId : String
  tgtId : String
deriving DecidableEq, Repr

/-- The property graph: entity nodes and typed edges between them. -/
structure GraphDB where
  entities : List GEntity
  rels : List GRel
deriving DecidableEq, Repr

/-- One traversal row of `find_related_chunks`. -/
structure ChunkRow where
  chunkId : String
  entityName : String
  entityType : String
  relevance : ℚ
deriving DecidableEq, Repr

/-- The relevance `CASE` of `find_related_chunks`:
distance 0 → 1.0, 1 → 0.8, 2 → 0.5, otherwise 0.3
(written with `mkRat` for kernel-computable exact values: 0.8 = 4/5,
0.5 = 1/2, 0.3 = 3/10). -/
def relevanceOfDistance (d : Nat) : ℚ :=
  if d = 0 then 1 else if d = 1 then mkRat 4 5 else if d = 2 then mkRat 1 2 else mkRat 3 10

/-- `Neo4jClient.find_entities_by_name`: `UNWIND` the names; for each, match
entities whose lower-cased name contains (fuzzy) or equals (exact) the
lower-cased candidate; a single global `LIMIT` applies.  No `DISTINCT`: an
entity matched by several names is returned once per matching name. -/
def findEntitiesByName (db : GraphDB) (entityNames : List String) (fuzzy : Bool)
    (limit : Nat) : List GEntity :=
  if entityNames.isEmpty then []
  else
    (entityNames.flatMap (fun n =>
      db.entities.filter (fun e =>
        if fuzzy then strContains (pyLower e.name.data) (pyLower n.data)
        else pyLower e.name.data == pyLower n.data))).take limit

/-- Undirected steps available from node `cur` that do not reuse a
relationship already on the path (Cypher relationship-uniqueness). -/
def relSteps (db : GraphDB) (used : List Nat) (cur : String) : List (Nat × String) :=
  db.rels.enum.filterMap (fun ir =>
    if used.contains ir.1 then none
    else if ir.2.srcId == cur then some (ir.1, ir.2.tgtId)
    else if ir.2.tgtId == cur then some (ir.1, ir.2.srcId)
    else none)

/-- All `(node id, distance)` pairs reachable by paths of length `1 .. fuel`
from `cur`, paths never repeating a relationship
(the `MATCH path = (start)-[*1..max_depth]-(related)` pattern). -/
def walkFrom (db : GraphDB) (used : List Nat) (cur : String) (dist : Nat) :
    Nat → List (String × Nat)
  | 0 => []
  | fuel + 1 =>
    (relSteps db used cur).flatMap (fun step =>
      (step.2, dist + 1) :: walkFrom db (step.1 :: used) step.2 (dist + 1) fuel)

/-- `Neo4jClient.find_related_chunks`: `UNWIND` the start ids; traverse up to
`max_depth` undirected hops; keep reached entities with a non-null
`source_id`; form `DISTINCT` rows `(chunk_id, entity_name, entity_type,
relevance)`; order by relevance descending (stable); apply the global
`LIMIT`. -/
def findRelatedChunks (db : GraphDB) (entityIds : List String)
    (maxDepth limit : Nat) : List ChunkRow :=
  if entityIds.isEmpty then []
  else
    let rows := entityIds.flatMap (fun sid =>
      (db.entities.filter (fun e => e.id == sid)).flatMap (fun _ =>
        (walkFrom db [] sid 0 maxDepth).filterMap (fun nd =>
          match db.entities.find? (fun e => e.id == nd.1) with
          | some rel =>
            match rel.sourceId with
            | some cid => some ⟨cid, rel.name, rel.etype, relevanceOfDistance nd.2⟩
            | none => none
          | none => none)))
    (pySorted (fun a b => decide (b.relevance ≤ a.relevance)) (dedupFirst rows)).take limit

/-! ### Graph strategy of the hybrid engine (`HybridSearchEngine._graph_search`) -/

/-- `QdrantVectorStore.retrieve_by_ids`: exact lookup of the requested chunk
ids in the content store; found chunks come back as `SearchResult`s with
`score = 0.0` and `source = 'graph'`; ids absent from the store are skipped. -/
def retrieveByIds (store : List ChunkRec) (chunkIds : List String) : List SR :=
  if chunkIds.isEmpty then []
  else
    (store.filter (fun c => chunkIds.contains c.id)).map
      (fun c => ⟨c.id, c.content, 0, c.modality, "graph"⟩)

/-- The dict comprehension
`relevance_map = {c['chunk_id']: c['relevance'] for c in related_chunks}`:
later rows overwrite earlier rows with the same chunk id. -/
def relevanceMap (rows : List ChunkRow) : List (String × ℚ) :=
  rows.foldl (fun m r => dictInsert m r.chunkId r.relevance) []

/-- `HybridSearchEngine._graph_search`.  The two graph-store calls are
modelled as `Except`-valued functions (`fe` = `find_entities_by_name`,
`fr` = `find_related_chunks`) so that a raised error can be represented; the
surrounding `try/except` turns any error into an empty result list.
Hybrid search invokes the store with `fuzzy=True, limit=10` and
`max_depth=2, limit=20`; those arguments are baked into `fe`/`fr` at the
call sites below. -/
def hybridGraphSearch (fe : List String → Except String (List GEntity))
    (fr : List String → Except String (List ChunkRow))
    (store : List ChunkRec) (queryText : String) : List SR :=
  let candidates := hybridCandidates queryText
  if candidates.isEmpty then []
  else
    match (do
      let matched ← fe candidates
      if matched.isEmpty then return []
      let rows ← fr (matched.map (·.id))
      if rows.isEmpty then return []
      let chunkIds := rows.map (·.chunkId)
      let searchResults := retrieveByIds store chunkIds
      let rmap := relevanceMap rows
      return searchResults.map (fun r =>
        match dictFind rmap r.id with
        | some rel => { r with score := rel, source := "graph" }
        | none => r) : Except String (List SR)) with
    | .ok rs => rs
    | .error _ => []

/-- The graph-store calls exactly as `_graph_search` issues them against a
live store: `find_entities_by_name(..., fuzzy=True, limit=10)`. -/
def dbFindEntities (db : GraphDB) (names : List String) : Except String (List GEntity) :=
  .ok (findEntitiesByName db names true 10)

/-- `find_related_chunks(..., max_depth=2, limit=20)` against a live store. -/
def dbFindRelated (db : GraphDB) (ids : List String) : Except String (List ChunkRow) :=
  .ok (findRelatedChunks db ids 2 20)

/-! ### Hybrid orchestration (`HybridSearchEngine.search`) -/

/-- Steps 3–6 of `HybridSearchEngine.search` given the three per-strategy
result lists: conditional graph filtering, fusion, truncation to `top_k`. -/
def hybridSearchPipeline (useGraphFilter : Bool)
    (vectorWeight graphWeight keywordWeight : ℚ) (topK : Nat)
    (vectorResults graphResults keywordResults : List SR) : List SR :=
  let filtered := graphFilterStep useGraphFilter vectorResults graphResults
  (fuseResults vectorWeight graphWeight keywordWeight
    filtered graphResults keywordResults).take topK

/-- `HybridSearchEngine.search` with the vector strategy's output supplied as
input (the embedding/vector store round-trip is an external collaborator) and
the graph strategy run through `hybridGraphSearch`.
`HybridSearchEngine._keyword_search` returns `[]` unconditionally in the
source, so the keyword contribution is the empty list. -/
def hybridSearchRun (useGraphFilter : Bool)
    (vectorWeight graphWeight keywordWeight : ℚ) (topK : Nat)
    (vectorResults : List SR)
    (fe : List String → Except String (List GEntity))
    (fr : List String → Except String (List ChunkRow))
    (store : List ChunkRec) (queryText : String) : List SR :=
  hybridSearchPipeline useGraphFilter vectorWeight graphWeight keywordWeight topK
    vectorResults (hybridGraphSearch fe fr store queryText) []

/-! ## Helper lemmas -/

/-- The output of one flattening pass is a fixed point of `flattenValue`. -/
theorem flattenValue_flattened {v v' : PropValue} (h : flattenValue v = some v') :
    flattenValue v' = some v' := by
  cases v with
  | vNull => simp [flattenValue] at h
  | vBool b => simp [flattenValue] at h; subst h; rfl
  | vInt n => simp [flattenValue] at h; subst h; rfl
  | vFloat q => simp [flattenValue] at h; subst h; rfl
  | vStr s => simp [flattenValue] at h; subst h; rfl
  | vList items =>
    by_cases hall : items.all PropValue.isScalar
    · simp [flattenValue, hall] at h
      subst h
      simp [flattenValue, hall]
    · simp [flattenValue, hall] at h
      subst h
      rfl
  | vDict entries =>
    simp [flattenValue] at h
    subst h
    rfl

/-! ### Dictionary lemmas -/

theorem dictFind_nil (k : String) : dictFind ([] : List (String × α)) k = none := rfl

/-- Unfolding lemma for `dictFind` on a cons cell. -/
theorem dictFind_cons (kv : String × α) (t : List (String × α)) (k : String) :
    dictFind (kv :: t) k = if kv.1 == k then some kv.2 else dictFind t k := by
  simp only [dictFind, List.find?_cons]
  cases hk : kv.1 == k <;> simp [hk]

/-- Recursive characterization of `dictInsert`. -/
theorem dictInsert_cons (kv : String × α) (t : List (String × α)) (k : String) (v : α) :
    dictInsert (kv :: t) k v =
      if kv.1 == k then (k, v) :: t.map (fun e => if e.1 == k then (k, v) else e)
      else kv :: dictInsert t k v := by
  by_cases hk : kv.1 == k
  · have hany : ((kv :: t).any (fun e => e.1 == k)) = true := by
      simp [List.any_cons, hk]
    rw [if_pos hk]
    rw [show dictInsert (kv :: t) k v =
      (kv :: t).map (fun e => if e.1 == k then (k, v) else e) by
        simp only [dictInsert, hany, if_pos]]
    rw [List.map_cons, if_pos hk]
  · rw [if_neg hk]
    by_cases ht : t.any (fun e => e.1 == k)
    · have hany : ((kv :: t).any (fun e => e.1 == k)) = true := by
        simp [List.any_cons, ht]
      simp only [dictInsert, hany, if_pos, ht, List.map_cons, if_neg hk]
    · have hany : ¬ ((kv :: t).any (fun e => e.1 == k)) = true := by
        simp only [List.any_cons, Bool.or_eq_true, not_or]
        exact ⟨hk, by simpa using ht⟩
      simp only [dictInsert, hany, ht, Bool.false_eq_true, if_neg, not_false_eq_true,
        List.cons_append]

/-- The replace-in-place branch of `dictInsert` does not change keys. -/
theorem dictKeys_map_replace (t : List (String × α)) (k : String) (v : α) :
    dictKeys (t.map (fun e => if e.1 == k then (k, v) else e)) = dictKeys t := by
  simp only [dictKeys, List.map_map]
  refine List.map_congr_left (fun e _ => ?_)
  by_cases he : e.1 == k
  · have hek : e.1 = k := by simpa using he
    simp [Function.comp, he, hek]
  · simp [Function.comp, he]

/-- Replacement at key `k` is invisible to lookups of a different key. -/
theorem dictFind_map_replace_ne (t : List (String × α)) (k k' : String) (v : α)
    (h : k' ≠ k) :
    dictFind (t.map (fun e => if e.1 == k then (k, v) else e)) k' = dictFind t k' := by
  induction t with
  | nil => rfl
  | cons e t ih =>
    rw [List.map_cons, dictFind_cons, dictFind_cons]
    by_cases he : e.1 == k
    · have hek : e.1 = k := by simpa using he
      have h1 : ¬ ((k, v).1 == k') = true := by simpa using (Ne.symm h)
      have h2 : ¬ (e.1 == k') = true := by simpa [hek] using (Ne.symm h)
      rw [if_pos he, if_neg h1, if_neg h2]
      exact ih
    · rw [if_neg he]
      by_cases he' : e.1 == k'
      · rw [if_pos he', if_pos he']
      · rw [if_neg he', if_neg he']
        exact ih

theorem dictFind_insert_self (m : List (String × α)) (k : String) (v : α) :
    dictFind (dictInsert m k v) k = some v := by
  induction m with
  | nil =>
    show dictFind ([] ++ [(k, v)]) k = some v
    rw [List.nil_append, dictFind_cons, if_pos (by simp)]
  | cons kv t ih =>
    rw [dictInsert_cons]
    by_cases hk : kv.1 == k
    · rw [if_pos hk, dictFind_cons, if_pos (by simp)]
    · rw [if_neg hk, dictFind_cons, if_neg hk]
      exact ih

theorem dictFind_insert_ne (m : List (String × α)) (k k' : String) (v : α)
    (h : k' ≠ k) : dictFind (dictInsert m k v) k' = dictFind m k' := by
  induction m with
  | nil =>
    have h1 : ¬ ((k, v).1 == k') = true := by simpa using (Ne.symm h)
    show dictFind ([] ++ [(k, v)]) k' = dictFind [] k'
    rw [List.nil_append, dictFind_cons, if_neg h1]
  | cons kv t ih =>
    rw [dictInsert_cons]
    by_cases hk : kv.1 == k
    · have hek : kv.1 = k := by simpa using hk
      have h1 : ¬ ((k, v).1 == k') = true := by simpa using (Ne.symm h)
      have h2 : ¬ (kv.1 == k') = true := by simpa [hek] using (Ne.symm h)
      rw [if_pos hk, dictFind_cons, if_neg h1, dictFind_cons, if_neg h2]
      exact dictFind_map_replace_ne t k k' v h
    · rw [if_neg hk, dictFind_cons, dictFind_cons]
      by_cases he' : kv.1 == k'
      · rw [if_pos he', if_pos he']
      · rw [if_neg he', if_neg he']
        exact ih

theorem dictKeys_insert (m : List (String × α)) (k : String) (v : α) (x : String) :
    x ∈ dictKeys (dictInsert m k v) ↔ x ∈ dictKeys m ∨ x = k := by
  induction m with
  | nil => simp [dictInsert, dictKeys]
  | cons kv t ih =>
    rw [dictInsert_cons]
    by_cases hk : kv.1 == k
    · have hek : kv.1 = k := by simpa using hk
      simp only [hk, if_pos, dictKeys, List.map_cons, List.mem_cons]
      rw [show List.map (fun x => x.1) (t.map (fun e => if e.1 == k then (k, v) else e)) =
        dictKeys (t.map (fun e => if e.1 == k then (k, v) else e)) from rfl]
      rw [dictKeys_map_replace]
      simp only [dictKeys, hek]
      tauto
    · simp only [hk, Bool.false_eq_true, if_neg, not_false_eq_true, dictKeys,
        List.map_cons, List.mem_cons]
      rw [show List.map (fun x => x.1) (dictInsert t k v) = dictKeys (dictInsert t k v)
        from rfl]
      rw [show List.map (fun x => x.1) t = dictKeys t from rfl] at *
      constructor
      · rintro (rfl | hx)
        · exact Or.inl (Or.inl rfl)
        · rcases ih.mp hx with h1 | h1
          · exact Or.inl (Or.inr h1)
          · exact Or.inr h1
      · rintro ((rfl | h1) | rfl)
        · exact Or.inl rfl
        · exact Or.inr (ih.mpr (Or.inl h1))
        · exact Or.inr (ih.mpr (Or.inr rfl))

theorem dictFind_eq_none_iff (m : List (String × α)) (x : String) :
    dictFind m x = none ↔ x ∉ dictKeys m := by
  simp only [dictFind, Option.map_eq_none', List.find?_eq_none, beq_iff_eq,
    dictKeys, List.mem_map]
  constructor
  · rintro h ⟨kv, hkv, rfl⟩
    exact h kv hkv rfl
  · rintro h kv hkv rfl
    exact h ⟨kv, hkv, rfl⟩

theorem dictFind_mem (m : List (String × α)) (x : String) (p : α)
    (h : dictFind m x = some p) : (x, p) ∈ m := by
  simp only [dictFind, Option.map_eq_some'] at h
  obtain ⟨kv, hkv, rfl⟩ := h
  have hmem := List.mem_of_find?_eq_some hkv
  have hx : kv.1 = x := by simpa using List.find?_some hkv
  rwa [← hx]

theorem dictKeys_insert_nodup (m : List (String × α)) (k : String) (v : α)
    (h : (dictKeys m).Nodup) : (dictKeys (dictInsert m k v)).Nodup := by
  induction m with
  | nil => simp [dictInsert, dictKeys]
  | cons kv t ih =>
    rw [dictInsert_cons]
    simp only [dictKeys, List.map_cons, List.nodup_cons] at h
    obtain ⟨hnot, hnd⟩ := h
    by_cases hk : kv.1 == k
    · have hek : kv.1 = k := by simpa using hk
      simp only [hk, if_pos, dictKeys, List.map_cons, List.nodup_cons]
      rw [show List.map (fun x => x.1) (t.map (fun e => if e.1 == k then (k, v) else e)) =
        dictKeys (t.map (fun e => if e.1 == k then (k, v) else e)) from rfl]
      rw [dictKeys_map_replace]
      exact ⟨by rw [← hek]; exact hnot, hnd⟩
    · have hne : kv.1 ≠ k := by simpa using hk
      simp only [hk, Bool.false_eq_true, if_neg, not_false_eq_true, dictKeys,
        List.map_cons, List.nodup_cons]
      refine ⟨?_, ih hnd⟩
      rw [show List.map (fun x => x.1) (dictInsert t k v) = dictKeys (dictInsert t k v)
        from rfl]
      rw [dictKeys_insert]
      rintro (hmem | rfl)
      · exact hnot hmem
      · exact hne rfl

/-! ### Fusion loop lemmas -/

theorem addVectorResults_cons (w : ℚ) (m : ScoreMap) (r : SR) (t : List SR) :
    addVectorResults w m (r :: t) =
      addVectorResults w (dictInsert m r.id (r, r.score * w)) t := rfl

theorem addGraphResults_cons (w : ℚ) (m : ScoreMap) (r : SR) (t : List SR) :
    addGraphResults w m (r :: t) =
      addGraphResults w
        (match dictFind m r.id with
          | some (er, es) =>
            dictInsert m r.id
              ((if er.source ≠ r.source then { er with source := er.source ++ "+graph" }
                else er), es + r.score * w)
          | none => dictInsert m r.id (r, r.score * w)) t := by
  cases h : dictFind m r.id with
  | none => simp [addGraphResults, List.foldl_cons, h]
  | some p => obtain ⟨er, es⟩ := p; simp [addGraphResults, List.foldl_cons, h]

theorem addKeywordResults_cons (w : ℚ) (m : ScoreMap) (r : SR) (t : List SR) :
    addKeywordResults w m (r :: t) =
      addKeywordResults w
        (match dictFind m r.id with
          | some (er, es) => dictInsert m r.id (er, es + r.score * w)
          | none => dictInsert m r.id (r, r.score * w)) t := by
  cases h : dictFind m r.id with
  | none => simp [addKeywordResults, List.foldl_cons, h]
  | some p => obtain ⟨er, es⟩ := p; simp [addKeywordResults, List.foldl_cons, h]

theorem addVectorResults_frame (w : ℚ) (m : ScoreMap) (rs : List SR) (x : String)
    (hx : x ∉ rs.map (·.id)) :
    dictFind (addVectorResults w m rs) x = dictFind m x := by
  induction rs generalizing m with
  | nil => rfl
  | cons r t ih =>
    simp only [List.map_cons, List.mem_cons, not_or] at hx
    rw [addVectorResults_cons, ih _ hx.2, dictFind_insert_ne _ _ _ _ hx.1]

theorem addGraphResults_frame (w : ℚ) (m : ScoreMap) (rs : List SR) (x : String)
    (hx : x ∉ rs.map (·.id)) :
    dictFind (addGraphResults w m rs) x = dictFind m x := by
  induction rs generalizing m with
  | nil => rfl
  | cons r t ih =>
    simp only [List.map_cons, List.mem_cons, not_or] at hx
    rw [addGraphResults_cons]
    cases h : dictFind m r.id with
    | none => rw [ih _ hx.2, dictFind_insert_ne _ _ _ _ hx.1]
    | some p =>
      obtain ⟨er, es⟩ := p
      rw [ih _ hx.2, dictFind_insert_ne _ _ _ _ hx.1]

theorem addKeywordResults_frame (w : ℚ) (m : ScoreMap) (rs : List SR) (x : String)
    (hx : x ∉ rs.map (·.id)) :
    dictFind (addKeywordResults w m rs) x = dictFind m x := by
  induction rs generalizing m with
  | nil => rfl
  | cons r t ih =>
    simp only [List.map_cons, List.mem_cons, not_or] at hx
    rw [addKeywordResults_cons]
    cases h : dictFind m r.id with
    | none => rw [ih _ hx.2, dictFind_insert_ne _ _ _ _ hx.1]
    | some p =>
      obtain ⟨er, es⟩ := p
      rw [ih _ hx.2, dictFind_insert_ne _ _ _ _ hx.1]

theorem addVectorResults_hit (w : ℚ) (m : ScoreMap) (rs : List SR) (x : String) (r : SR)
    (hnd : (rs.map (·.id)).Nodup)
    (hfind : rs.find? (fun s => s.id == x) = some r) :
    dictFind (addVectorResults w m rs) x = some (r, r.score * w) := by
  induction rs generalizing m with
  | nil => simp at hfind
  | cons a t ih =>
    simp only [List.map_cons, List.nodup_cons] at hnd
    rw [List.find?_cons] at hfind
    cases ha : a.id == x with
    | true =>
      have hax : a.id = x := by simpa using ha
      rw [ha] at hfind
      simp only [Option.some.injEq] at hfind
      subst hfind
      rw [addVectorResults_cons, addVectorResults_frame _ _ _ _ (hax ▸ hnd.1)]
      rw [← hax, dictFind_insert_self]
    | false =>
      rw [ha] at hfind
      rw [addVectorResults_cons]
      exact ih _ hnd.2 hfind

theorem addGraphResults_hit_present (w : ℚ) (m : ScoreMap) (rs : List SR) (x : String)
    (r : SR) (er : SR) (es : ℚ) (hnd : (rs.map (·.id)).Nodup)
    (hfind : rs.find? (fun s => s.id == x) = some r)
    (hm : dictFind m x = some (er, es)) :
    dictFind (addGraphResults w m rs) x =
      some ((if er.source ≠ r.source then { er with source := er.source ++ "+graph" }
        else er), es + r.score * w) := by
  induction rs generalizing m with
  | nil => simp at hfind
  | cons a t ih =>
    simp only [List.map_cons, List.nodup_cons] at hnd
    rw [List.find?_cons] at hfind
    cases ha : a.id == x with
    | true =>
      have hax : a.id = x := by simpa using ha
      rw [ha] at hfind
      simp only [Option.some.injEq] at hfind
      subst hfind
      rw [addGraphResults_cons, hax, hm]
      rw [addGraphResults_frame _ _ _ _ (hax ▸ hnd.1)]
      rw [dictFind_insert_self]
    | false =>
      rw [ha] at hfind
      rw [addGraphResults_cons]
      have hne : x ≠ a.id := fun hxe => by simp [hxe] at ha
      cases h : dictFind m a.id with
      | none => exact ih _ hnd.2 hfind (by rwa [dictFind_insert_ne _ _ _ _ hne])
      | some p =>
        obtain ⟨er2, es2⟩ := p
        exact ih _ hnd.2 hfind (by rwa [dictFind_insert_ne _ _ _ _ hne])

theorem addGraphResults_hit_absent (w : ℚ) (m : ScoreMap) (rs : List SR) (x : String)
    (r : SR) (hnd : (rs.map (·.id)).Nodup)
    (hfind : rs.find? (fun s => s.id == x) = some r)
    (hm : dictFind m x = none) :
    dictFind (addGraphResults w m rs) x = some (r, r.score * w) := by
  induction rs generalizing m with
  | nil => simp at hfind
  | cons a t ih =>
    simp only [List.map_cons, List.nodup_cons] at hnd
    rw [List.find?_cons] at hfind
    cases ha : a.id == x with
    | true =>
      have hax : a.id = x := by simpa using ha
      rw [ha] at hfind
      simp only [Option.some.injEq] at hfind
      subst hfind
      rw [addGraphResults_cons, hax, hm]
      rw [addGraphResults_frame _ _ _ _ (hax ▸ hnd.1)]
      rw [← hax, dictFind_insert_self]
    | false =>
      rw [ha] at hfind
      rw [addGraphResults_cons]
      have hne : x ≠ a.id := fun hxe => by simp [hxe] at ha
      cases h : dictFind m a.id with
      | none => exact ih _ hnd.2 hfind (by rwa [dictFind_insert_ne _ _ _ _ hne])
      | some p =>
        obtain ⟨er2, es2⟩ := p
        exact ih _ hnd.2 hfind (by rwa [dictFind_insert_ne _ _ _ _ hne])

theorem addKeywordResults_hit_present (w : ℚ) (m : ScoreMap) (rs : List SR) (x : String)
    (r : SR) (er : SR) (es : ℚ) (hnd : (rs.map (·.id)).Nodup)
    (hfind : rs.find? (fun s => s.id == x) = some r)
    (hm : dictFind m x = some (er, es)) :
    dictFind (addKeywordResults w m rs) x = some (er, es + r.score * w) := by
  induction rs generalizing m with
  | nil => simp at hfind
  | cons a t ih =>
    simp only [List.map_cons, List.nodup_cons] at hnd
    rw [List.find?_cons] at hfind
    cases ha : a.id == x with
    | true =>
      have hax : a.id = x := by simpa using ha
      rw [ha] at hfind
      simp only [Option.some.injEq] at hfind
      subst hfind
      rw [addKeywordResults_cons, hax, hm]
      rw [addKeywordResults_frame _ _ _ _ (hax ▸ hnd.1)]
      rw [dictFind_insert_self]
    | false =>
      rw [ha] at hfind
      rw [addKeywordResults_cons]
      have hne : x ≠ a.id := fun hxe => by simp [hxe] at ha
      cases h : dictFind m a.id with
      | none => exact ih _ hnd.2 hfind (by rwa [dictFind_insert_ne _ _ _ _ hne])
      | some p =>
        obtain ⟨er2, es2⟩ := p
        exact ih _ hnd.2 hfind (by rwa [dictFind_insert_ne _ _ _ _ hne])

theorem addKeywordResults_hit_absent (w : ℚ) (m : ScoreMap) (rs : List SR) (x : String)
    (r : SR) (hnd : (rs.map (·.id)).Nodup)
    (hfind : rs.find? (fun s => s.id == x) = some r)
    (hm : dictFind m x = none) :
    dictFind (addKeywordResults w m rs) x = some (r, r.score * w) := by
  induction rs generalizing m with
  | nil => simp at hfind
  | cons a t ih =>
    simp only [List.map_cons, List.nodup_cons] at hnd
    rw [List.find?_cons] at hfind
    cases ha : a.id == x with
    | true =>
      have hax : a.id = x := by simpa using ha
      rw [ha] at hfind
      simp only [Option.some.injEq] at hfind
      subst hfind
      rw [addKeywordResults_cons, hax, hm]
      rw [addKeywordResults_frame _ _ _ _ (hax ▸ hnd.1)]
      rw [← hax, dictFind_insert_self]
    | false =>
      rw [ha] at hfind
      rw [addKeywordResults_cons]
      have hne : x ≠ a.id := fun hxe => by simp [hxe] at ha
      cases h : dictFind m a.id with
      | none => exact ih _ hnd.2 hfind (by rwa [dictFind_insert_ne _ _ _ _ hne])
      | some p =>
        obtain ⟨er2, es2⟩ := p
        exact ih _ hnd.2 hfind (by rwa [dictFind_insert_ne _ _ _ _ hne])

/-! ### Map well-formedness through the fusion loops -/

theorem goodMap_dictInsert (m : ScoreMap) (k : String) (v : SR × ℚ)
    (h : goodMap m) (hv : v.1.id = k) : goodMap (dictInsert m k v) := by
  intro kv hkv
  by_cases hany : m.any (fun e => e.1 == k)
  · simp only [dictInsert, hany, if_pos, List.mem_map] at hkv
    obtain ⟨e, he, rfl⟩ := hkv
    by_cases hek : e.1 == k
    · simpa [hek] using hv
    · simpa [hek] using h e he
  · simp only [dictInsert, hany, Bool.false_eq_true, if_neg, not_false_eq_true,
      List.mem_append, List.mem_singleton] at hkv
    rcases hkv with hkv | rfl
    · exact h kv hkv
    · simpa using hv

theorem goodMap_find (m : ScoreMap) (x : String) (p : SR × ℚ)
    (h : goodMap m) (hf : dictFind m x = some p) : p.1.id = x :=
  h (x, p) (dictFind_mem m x p hf)

theorem goodMap_addVectorResults (w : ℚ) (m : ScoreMap) (rs : List SR)
    (h : goodMap m) : goodMap (addVectorResults w m rs) := by
  induction rs generalizing m with
  | nil => exact h
  | cons r t ih =>
    rw [addVectorResults_cons]
    exact ih _ (goodMap_dictInsert _ _ _ h rfl)

theorem goodMap_addGraphResults (w : ℚ) (m : ScoreMap) (rs : List SR)
    (h : goodMap m) : goodMap (addGraphResults w m rs) := by
  induction rs generalizing m with
  | nil => exact h
  | cons r t ih =>
    rw [addGraphResults_cons]
    cases hf : dictFind m r.id with
    | none => exact ih _ (goodMap_dictInsert _ _ _ h rfl)
    | some p =>
      obtain ⟨er, es⟩ := p
      have hid : er.id = r.id := goodMap_find m r.id (er, es) h hf
      refine ih _ (goodMap_dictInsert _ _ _ h ?_)
      by_cases hs : er.source ≠ r.source <;> simp [hs, hid]

theorem goodMap_addKeywordResults (w : ℚ) (m : ScoreMap) (rs : List SR)
    (h : goodMap m) : goodMap (addKeywordResults w m rs) := by
  induction rs generalizing m with
  | nil => exact h
  | cons r t ih =>
    rw [addKeywordResults_cons]
    cases hf : dictFind m r.id with
    | none => exact ih _ (goodMap_dictInsert _ _ _ h rfl)
    | some p =>
      obtain ⟨er, es⟩ := p
      have hid : er.id = r.id := goodMap_find m r.id (er, es) h hf
      exact ih _ (goodMap_dictInsert _ _ _ h hid)

theorem nodup_addVectorResults (w : ℚ) (m : ScoreMap) (rs : List SR)
    (h : (dictKeys m).Nodup) : (dictKeys (addVectorResults w m rs)).Nodup := by
  induction rs generalizing m with
  | nil => exact h
  | cons r t ih =>
    rw [addVectorResults_cons]
    exact ih _ (dictKeys_insert_nodup _ _ _ h)

theorem nodup_addGraphResults (w : ℚ) (m : ScoreMap) (rs : List SR)
    (h : (dictKeys m).Nodup) : (dictKeys (addGraphResults w m rs)).Nodup := by
  induction rs generalizing m with
  | nil => exact h
  | cons r t ih =>
    rw [addGraphResults_cons]
    cases hf : dictFind m r.id with
    | none => exact ih _ (dictKeys_insert_nodup _ _ _ h)
    | some p =>
      obtain ⟨er, es⟩ := p
      exact ih _ (dictKeys_insert_nodup _ _ _ h)

theorem nodup_addKeywordResults (w : ℚ) (m : ScoreMap) (rs : List SR)
    (h : (dictKeys m).Nodup) : (dictKeys (addKeywordResults w m rs)).Nodup := by
  induction rs generalizing m with
  | nil => exact h
  | cons r t ih =>
    rw [addKeywordResults_cons]
    cases hf : dictFind m r.id with
    | none => exact ih _ (dictKeys_insert_nodup _ _ _ h)
    | some p =>
      obtain ⟨er, es⟩ := p
      exact ih _ (dictKeys_insert_nodup _ _ _ h)

/-! ### Stable-sort lemmas -/

theorem insertSorted_perm (le : α → α → Bool) (a : α) (l : List α) :
    (insertSorted le a l).Perm (a :: l) := by
  induction l with
  | nil => rfl
  | cons b t ih =>
    by_cases hab : le a b
    · simp [insertSorted, hab]
    · simp only [insertSorted, hab, Bool.false_eq_true, if_neg, not_false_eq_true]
      exact (ih.cons b).trans (List.Perm.swap a b t)

theorem pySorted_perm (le : α → α → Bool) (l : List α) :
    (pySorted le l).Perm l := by
  induction l with
  | nil => rfl
  | cons a t ih =>
    exact (insertSorted_perm le a (pySorted le t)).trans (ih.cons a)

theorem insertSorted_pairwise (le : α → α → Bool)
    (htrans : ∀ a b c, le a b = true → le b c = true → le a c = true)
    (htot : ∀ a b, le a b = true ∨ le b a = true) (a : α) (l : List α)
    (h : l.Pairwise (fun x y => le x y = true)) :
    (insertSorted le a l).Pairwise (fun x y => le x y = true) := by
  induction l with
  | nil => simp [insertSorted]
  | cons b t ih =>
    rcases List.pairwise_cons.mp h with ⟨hbt, ht⟩
    by_cases hab : le a b
    · simp only [insertSorted, hab, if_pos]
      refine List.pairwise_cons.mpr ⟨?_, h⟩
      intro y hy
      rcases List.mem_cons.mp hy with rfl | hyt
      · exact hab
      · exact htrans a b y hab (hbt y hyt)
    · have hba : le b a = true := by
        rcases htot a b with h1 | h1
        · exact absurd h1 hab
        · exact h1
      simp only [insertSorted, hab, Bool.false_eq_true, if_neg, not_false_eq_true]
      refine List.pairwise_cons.mpr ⟨?_, ih ht⟩
      intro y hy
      have : y ∈ a :: t := (insertSorted_perm le a t).mem_iff.mp hy
      rcases List.mem_cons.mp this with rfl | hyt
      · exact hba
      · exact hbt y hyt

theorem pySorted_pairwise (le : α → α → Bool)
    (htrans : ∀ a b c, le a b = true → le b c = true → le a c = true)
    (htot : ∀ a b, le a b = true ∨ le b a = true) (l : List α) :
    (pySorted le l).Pairwise (fun x y => le x y = true) := by
  induction l with
  | nil => simp [pySorted]
  | cons a t ih => exact insertSorted_pairwise le htrans htot a _ ih

/-! ### Locating the unique entry of a key -/

theorem find?_of_filter_singleton {p : α → Bool} {l : List α} {a : α}
    (h : l.filter p = [a]) : l.find? p = some a := by
  induction l with
  | nil => simp at h
  | cons b t ih =>
    by_cases hb : p b
    · rw [List.filter_cons_of_pos hb] at h
      injection h with h1 h2
      rw [List.find?_cons_of_pos _ hb, h1]
    · rw [List.filter_cons_of_neg hb] at h
      rw [List.find?_cons_of_neg _ hb]
      exact ih h

theorem filter_key_singleton (m : List (String × α)) (x : String) (p : α)
    (hnd : (dictKeys m).Nodup) (hmem : (x, p) ∈ m) :
    m.filter (fun kv => kv.1 == x) = [(x, p)] := by
  induction m with
  | nil => simp at hmem
  | cons kv t ih =>
    simp only [dictKeys, List.map_cons, List.nodup_cons] at hnd
    obtain ⟨hnot, hnd⟩ := hnd
    rcases List.mem_cons.mp hmem with rfl | hmem'
    · rw [List.filter_cons_of_pos (by simp)]
      have : t.filter (fun kv => kv.1 == x) = [] := by
        rw [List.filter_eq_nil_iff]
        intro e he hex
        exact hnot (List.mem_map.mpr ⟨e, he, by simpa using hex⟩)
      simp [this]
    · have hx : x ∈ t.map (·.1) := by
        rw [List.mem_map]
        exact ⟨(x, p), hmem', rfl⟩
      have hne : (kv.1 == x) = false := by
        rw [beq_eq_false_iff_ne]
        intro hkx
        exact hnot (hkx ▸ hx)
      rw [List.filter_cons]
      simp only [hne, Bool.false_eq_true, if_neg, not_false_eq_true]
      exact ih hnd hmem'

theorem filter_key_nil (m : List (String × α)) (x : String)
    (hn : dictFind m x = none) : m.filter (fun kv => kv.1 == x) = [] := by
  rw [List.filter_eq_nil_iff]
  intro kv hkv
  simp only [dictFind, Option.map_eq_none', List.find?_eq_none] at hn
  exact hn kv hkv

theorem strategyEntry_none_iff (rs : List SR) (x : String) :
    strategyEntry rs x = none ↔ x ∉ rs.map (·.id) := by
  simp only [strategyEntry, List.find?_eq_none, List.mem_map]
  constructor
  · rintro h ⟨r, hr, rfl⟩
    exact h r hr (by simp)
  · rintro h r hr hid
    exact h ⟨r, hr, by simpa using hid⟩

theorem fuseMapFind_vector (wV : ℚ) (vrs : List SR) (x : String)
    (hv : (vrs.map (·.id)).Nodup) :
    dictFind (addVectorResults wV [] vrs) x =
      (strategyEntry vrs x).map (fun r => (r, r.score * wV)) := by
  cases h : strategyEntry vrs x with
  | none =>
    rw [addVectorResults_frame _ _ _ _ ((strategyEntry_none_iff vrs x).mp h)]
    rfl
  | some r => simpa using addVectorResults_hit wV [] vrs x r hv h

theorem fuseMapFind_graph (wG : ℚ) (m : ScoreMap) (grs : List SR) (x : String)
    (hg : (grs.map (·.id)).Nodup) :
    dictFind (addGraphResults wG m grs) x =
      match strategyEntry grs x, dictFind m x with
      | none, o => o
      | some rg, some (er, es) =>
        some ((if er.source ≠ rg.source then { er with source := er.source ++ "+graph" }
          else er), es + rg.score * wG)
      | some rg, none => some (rg, rg.score * wG) := by
  cases hgr : strategyEntry grs x with
  | none => simpa using addGraphResults_frame wG m grs x ((strategyEntry_none_iff grs x).mp hgr)
  | some rg =>
    cases hm : dictFind m x with
    | none => simpa using addGraphResults_hit_absent wG m grs x rg hg hgr hm
    | some p =>
      obtain ⟨er, es⟩ := p
      simpa using addGraphResults_hit_present wG m grs x rg er es hg hgr hm

theorem fuseMapFind_keyword (wK : ℚ) (m : ScoreMap) (krs : List SR) (x : String)
    (hk : (krs.map (·.id)).Nodup) :
    dictFind (addKeywordResults wK m krs) x =
      match strategyEntry krs x, dictFind m x with
      | none, o => o
      | some rk, some (er, es) => some (er, es + rk.score * wK)
      | some rk, none => some (rk, rk.score * wK) := by
  cases hkr : strategyEntry krs x with
  | none => simpa using addKeywordResults_frame wK m krs x ((strategyEntry_none_iff krs x).mp hkr)
  | some rk =>
    cases hm : dictFind m x with
    | none => simpa using addKeywordResults_hit_absent wK m krs x rk hk hkr hm
    | some p =>
      obtain ⟨er, es⟩ := p
      simpa using addKeywordResults_hit_present wK m krs x rk er es hk hkr hm

/-- The final stage of `_fuse_results` (stable sort by combined score, then
writing the combined score back) locates, for every chunk id, exactly the
entry the accumulation map holds for that id. -/
theorem fuseOutput_find (m : ScoreMap) (x : String)
    (hgm : goodMap m) (hnd : (dictKeys m).Nodup) :
    ((pySorted (fun a b => decide (b.2 ≤ a.2)) (m.map (·.2))).map
        (fun p => { p.1 with score := p.2 })).find? (fun r => r.id == x) =
      (dictFind m x).map (fun p => ({ p.1 with score := p.2 } : SR)) := by
  have hperm : (pySorted (fun a b => decide (b.2 ≤ a.2)) (m.map (·.2))).Perm
      (m.map (·.2)) := pySorted_perm _ _
  have hperm2 : ((pySorted (fun a b => decide (b.2 ≤ a.2)) (m.map (·.2))).map
      (fun p => ({ p.1 with score := p.2 } : SR))).Perm
      ((m.map (·.2)).map (fun p => ({ p.1 with score := p.2 } : SR))) :=
    hperm.map _
  have hfilter : ((m.map (·.2)).map (fun p => ({ p.1 with score := p.2 } : SR))).filter
      (fun r => r.id == x) =
      (m.filter (fun kv => kv.1 == x)).map
        (fun kv => ({ kv.2.1 with score := kv.2.2 } : SR)) := by
    rw [List.map_map, List.filter_map]
    congr 1
    apply List.filter_congr
    intro kv hkv
    have : kv.2.1.id = kv.1 := hgm kv hkv
    simp [Function.comp, this]
  cases hdf : dictFind m x with
  | some p =>
    have hmem := dictFind_mem m x p hdf
    have hsing := filter_key_singleton m x p hnd hmem
    have hout : ((pySorted (fun a b => decide (b.2 ≤ a.2)) (m.map (·.2))).map
        (fun p => ({ p.1 with score := p.2 } : SR))).filter (fun r => r.id == x) =
        [{ p.1 with score := p.2 }] := by
      have hpf := hperm2.filter (fun r => r.id == x)
      rw [hfilter, hsing] at hpf
      simpa [List.perm_singleton] using hpf
    rw [find?_of_filter_singleton hout]
    rfl
  | none =>
    have hnil := filter_key_nil m x hdf
    have hout : ((pySorted (fun a b => decide (b.2 ≤ a.2)) (m.map (·.2))).map
        (fun p => ({ p.1 with score := p.2 } : SR))).filter (fun r => r.id == x) = [] := by
      have hpf := hperm2.filter (fun r => r.id == x)
      rw [hfilter, hnil] at hpf
      simpa using hpf
    rw [List.find?_eq_none.mpr (fun r hr => (List.filter_eq_nil_iff.mp hout) r hr)]
    rfl

/-- The entry fusion emits for chunk id `x` is exactly the accumulation map's
entry for `x`, with the combined score written into the result. -/
theorem fuseResults_entry (wV wG wK : ℚ) (vrs grs krs : List SR) (x : String) :
    strategyEntry (fuseResults wV wG wK vrs grs krs) x =
      (dictFind (addKeywordResults wK
          (addGraphResults wG (addVectorResults wV [] vrs) grs) krs) x).map
        (fun p => ({ p.1 with score := p.2 } : SR)) := by
  have hgm : goodMap (addKeywordResults wK
      (addGraphResults wG (addVectorResults wV [] vrs) grs) krs) :=
    goodMap_addKeywordResults _ _ _
      (goodMap_addGraphResults _ _ _
        (goodMap_addVectorResults _ _ _ (by intro kv hkv; simp at hkv)))
  have hnd : (dictKeys (addKeywordResults wK
      (addGraphResults wG (addVectorResults wV [] vrs) grs) krs)).Nodup :=
    nodup_addKeywordResults _ _ _
      (nodup_addGraphResults _ _ _
        (nodup_addVectorResults _ _ _ (by simp [dictKeys])))
  exact fuseOutput_find _ x hgm hnd

/-! ## Claim theorems -/

/-- C8. Property flattening (`Neo4jClient._flatten_properties`) is idempotent:
flattening a property map twice yields exactly the same map as flattening it
once.  After one pass every kept value is a scalar or an all-scalar array (the
serialized forms are strings), which a second pass keeps unchanged; `None`
values were already dropped. -/
theorem flattenProperties_idempotent (props : List (String × PropValue)) :
    flattenProperties (flattenProperties props) = flattenProperties props := by
  induction props with
  | nil => rfl
  | cons kv t ih =>
    obtain ⟨k, v⟩ := kv
    cases h : flattenValue v with
    | none => simpa [flattenProperties, h] using ih
    | some v' =>
      simpa [flattenProperties, h, flattenValue_flattened h] using ih

/-- C6 counterexample. The claim "for any configured weight triple,
constructing the hybrid search engine succeeds" fails at `(0, 0, 0)`:
`HybridSearchEngine.__init__` divides each weight by their sum, and a zero
total raises `ZeroDivisionError`. -/
theorem hybridInit_zero_total_fails :
    hybridInit 0 0 0 = Except.error "ZeroDivisionError" := by
  simp [hybridInit]

/-- C6 amended. For any configured weight triple whose total is nonzero,
construction succeeds and the three effective (normalized) weights sum to 1
exactly (weights modelled as exact rationals; the floating-point
implementation reaches 1.0 within rounding tolerance). -/
theorem hybridInit_normalizes (graphWeight keywordWeight vectorWeight : ℚ)
    (h : graphWeight + keywordWeight + vectorWeight ≠ 0) :
    ∃ w : ℚ × ℚ × ℚ, hybridInit graphWeight keywordWeight vectorWeight = Except.ok w ∧
      w.1 + w.2.1 + w.2.2 = 1 := by
  refine ⟨(graphWeight / (graphWeight + keywordWeight + vectorWeight),
    keywordWeight / (graphWeight + keywordWeight + vectorWeight),
    vectorWeight / (graphWeight + keywordWeight + vectorWeight)), ?_, ?_⟩
  · simp [hybridInit, h]
  · simp only
    rw [div_add_div_same, div_add_div_same, div_self h]

/-- C6 witness: the source's default weights `(0.3, 0.2, 0.5)`. -/
theorem hybridInit_normalizes_witness :
    ∃ w : ℚ × ℚ × ℚ, hybridInit (3/10) (1/5) (1/2) = Except.ok w ∧
      w.1 + w.2.1 + w.2.2 = 1 :=
  hybridInit_normalizes (3/10) (1/5) (1/2) (by norm_num)

/-- C3. If the graph result list is empty, the filtering step of
`HybridSearchEngine.search` is not applied and the vector results pass through
to fusion unchanged, whatever the `use_graph_filter` setting. -/
theorem graphFilterStep_empty_graph (useGraphFilter : Bool) (vectorResults : List SR) :
    graphFilterStep useGraphFilter vectorResults [] = vectorResults := by
  simp [graphFilterStep]

/-- C4. Filter soundness: every chunk in the output of
`HybridSearchEngine._apply_graph_filter` was an element of the vector input
and its id occurs among the graph results' ids. -/
theorem applyGraphFilter_sound (vectorResults graphResults : List SR) (c : SR)
    (hc : c ∈ applyGraphFilter vectorResults graphResults) :
    c ∈ vectorResults ∧ ∃ g ∈ graphResults, g.id = c.id := by
  simp only [applyGraphFilter, List.mem_filter] at hc
  obtain ⟨hmem, hcontains⟩ := hc
  refine ⟨hmem, ?_⟩
  simp only [List.contains_eq_any_beq, List.any_eq_true, List.mem_map,
    beq_iff_eq] at hcontains
  obtain ⟨a, ⟨g, hg, rfl⟩, hx⟩ := hcontains
  exact ⟨g, hg, hx.symm⟩

/-- C4 witness: a vector result whose id occurs among the graph results. -/
theorem applyGraphFilter_sound_witness :
    SR.mk "X" "c" (1/2) "text" "vector" ∈ [SR.mk "X" "c" (1/2) "text" "vector"] ∧
      ∃ g ∈ [SR.mk "X" "cg" 0 "text" "graph"], g.id = "X" := by
  have h := applyGraphFilter_sound [SR.mk "X" "c" (1/2) "text" "vector"]
    [SR.mk "X" "cg" 0 "text" "graph"] (SR.mk "X" "c" (1/2) "text" "vector")
    (by simp [applyGraphFilter])
  exact ⟨h.1, h.2⟩

/-- Reduction of `Except` bind on an error (raised exceptions propagate). -/
theorem errorBind (e : ε) (f : α → Except ε β) :
    (Except.error e : Except ε α) >>= f = Except.error e := rfl

/-- Reduction of `Except` bind on a success. -/
theorem okBind (a : α) (f : α → Except ε β) :
    (Except.ok a : Except ε α) >>= f = f a := rfl

/-- If some chunk passing the modality filter has a BM25 score above 1, the
result-building loop of `KeywordSearcher.search` raises a `ValidationError`. -/
theorem keywordBuildResults_error (modalityFilter : Option String)
    (items : List (ChunkRec × ℚ))
    (h : ∃ p ∈ items, passesModality modalityFilter p.1 = true ∧ 1 < p.2) :
    ∃ msg, keywordBuildResults modalityFilter items = Except.error msg := by
  induction items with
  | nil => simp at h
  | cons hd tl ih =>
    obtain ⟨c, s⟩ := hd
    obtain ⟨p, hp, hpass, hscore⟩ := h
    rcases List.mem_cons.mp hp with heq | htl
    · subst heq
      have hpos : (0 : ℚ) < s := lt_trans one_pos hscore
      have hmk : mkSearchResult c.id c.content s c.modality "keyword" =
          Except.error "ValidationError: score greater than 1" := by
        simp only [mkSearchResult, if_neg (not_lt.mpr (le_of_lt hpos)), if_pos hscore]
      refine ⟨"ValidationError: score greater than 1", ?_⟩
      simp [keywordBuildResults, hpass, hpos, hmk, errorBind]
    · by_cases hpassHd : passesModality modalityFilter c
      · by_cases hposHd : (0 : ℚ) < s
        · cases hmk : mkSearchResult c.id c.content s c.modality "keyword" with
          | error msg =>
            exact ⟨msg, by simp [keywordBuildResults, hpassHd, hposHd, hmk, errorBind]⟩
          | ok r =>
            obtain ⟨msg, hmsg⟩ := ih ⟨p, htl, hpass, hscore⟩
            exact ⟨msg, by simp [keywordBuildResults, hpassHd, hposHd, hmk, hmsg, okBind, errorBind]⟩
        · obtain ⟨msg, hmsg⟩ := ih ⟨p, htl, hpass, hscore⟩
          exact ⟨msg, by simp [keywordBuildResults, hpassHd, hposHd, hmsg]⟩
      · obtain ⟨msg, hmsg⟩ := ih ⟨p, htl, hpass, hscore⟩
        exact ⟨msg, by simp [keywordBuildResults, hpassHd, hmsg]⟩

/-- C10. `models.SearchResult` validates its score into `[0, 1]` at
construction (pydantic `Field(ge=0.0, le=1.0)`); consequently
`KeywordSearcher.search` fails with a `ValidationError` whenever a chunk that
passes the modality filter receives a BM25 score above 1, instead of
returning an out-of-range result. -/
theorem searchResult_score_validated :
    (∀ (id content : String) (score : ℚ) (modality source : String) (r : SR),
      mkSearchResult id content score modality source = Except.ok r →
        0 ≤ r.score ∧ r.score ≤ 1) ∧
    (∀ (chunks : List ChunkRec) (scores : List ℚ) (topK : Nat)
      (modalityFilter : Option String),
      (∃ p ∈ chunks.zip scores, passesModality modalityFilter p.1 = true ∧ 1 < p.2) →
        ∃ msg, keywordSearch chunks scores topK modalityFilter = Except.error msg) := by
  constructor
  · intro id content score modality source r hr
    by_cases h0 : score < 0
    · simp [mkSearchResult, h0] at hr
    · by_cases h1 : 1 < score
      · simp [mkSearchResult, h0, h1] at hr
      · simp only [mkSearchResult, if_neg h0, if_neg h1, Except.ok.injEq] at hr
        subst hr
        exact ⟨not_lt.mp h0, not_lt.mp h1⟩
  · intro chunks scores topK modalityFilter h
    obtain ⟨msg, hmsg⟩ := keywordBuildResults_error modalityFilter (chunks.zip scores) h
    have hne : ¬ chunks.isEmpty := by
      obtain ⟨p, hp, -⟩ := h
      rcases chunks with _ | ⟨c, cs⟩
      · simp at hp
      · simp
    exact ⟨msg, by simp [keywordSearch, hne, hmsg, okBind, errorBind]⟩

/-- C10 witness: constructing a valid result yields an in-range score, and a
BM25 score of `1.5` makes the keyword search raise instead of returning. -/
theorem searchResult_score_validated_witness :
    (0 ≤ (SR.mk "A" "ca" (1/2) "text" "keyword").score ∧
      (SR.mk "A" "ca" (1/2) "text" "keyword").score ≤ 1) ∧
    ∃ msg, keywordSearch [ChunkRec.mk "A" "ca" "text"] [(3 : ℚ)/2] 5 none =
      Except.error msg := by
  constructor
  · exact searchResult_score_validated.1 "A" "ca" (1/2) "text" "keyword"
      (SR.mk "A" "ca" (1/2) "text" "keyword") (by simp [mkSearchResult]; norm_num)
  · exact searchResult_score_validated.2 [ChunkRec.mk "A" "ca" "text"] [(3 : ℚ)/2] 5 none
      ⟨(ChunkRec.mk "A" "ca" "text", (3 : ℚ)/2), by simp, by simp [passesModality], by norm_num⟩

/-- C2. Fusion additivity (`HybridSearchEngine._fuse_results`): for every
chunk id `x` appearing in at least one strategy's results (ids unique within
each strategy list), the fused score is exactly the sum of each contributing
strategy's score times that strategy's weight — each contributing strategy
counted exactly once, absent strategies contributing zero.  In particular a
chunk scoring `sV` under vector and `sG` under graph fuses to
`sV*wV + sG*wG`, and a chunk under a single strategy gets that strategy's
score times its weight. -/
theorem fuseResults_additive (wV wG wK : ℚ) (vrs grs krs : List SR) (x : String)
    (hv : (vrs.map (·.id)).Nodup) (hg : (grs.map (·.id)).Nodup)
    (hk : (krs.map (·.id)).Nodup)
    (hmem : x ∈ vrs.map (·.id) ∨ x ∈ grs.map (·.id) ∨ x ∈ krs.map (·.id)) :
    entryScore (fuseResults wV wG wK vrs grs krs) x =
      some ((entryScore vrs x).getD 0 * wV + (entryScore grs x).getD 0 * wG +
        (entryScore krs x).getD 0 * wK) := by
  simp only [entryScore]
  rw [fuseResults_entry, fuseMapFind_keyword _ _ _ _ hk, fuseMapFind_graph _ _ _ _ hg,
    fuseMapFind_vector _ _ _ hv]
  cases hve : strategyEntry vrs x with
  | none =>
    cases hge : strategyEntry grs x with
    | none =>
      cases hke : strategyEntry krs x with
      | none =>
        exfalso
        rcases hmem with h | h | h
        · exact (strategyEntry_none_iff vrs x).mp hve h
        · exact (strategyEntry_none_iff grs x).mp hge h
        · exact (strategyEntry_none_iff krs x).mp hke h
      | some rk => simp
    | some rg =>
      cases hke : strategyEntry krs x with
      | none => simp
      | some rk => simp
  | some rv =>
    cases hge : strategyEntry grs x with
    | none =>
      cases hke : strategyEntry krs x with
      | none => simp
      | some rk => simp
    | some rg =>
      cases hke : strategyEntry krs x with
      | none => simp
      | some rk => simp [add_assoc]

/-- C2 witness: a chunk found by vector and graph, with the source's default
weights. -/
theorem fuseResults_additive_witness :
    entryScore (fuseResults (1/2) (3/10) (1/5)
      [SR.mk "A" "ca" (1/2) "text" "vector"]
      [SR.mk "A" "cg" (4/5) "text" "graph"] ([] : List SR)) "A" =
      some ((entryScore [SR.mk "A" "ca" (1/2) "text" "vector"] "A").getD 0 * (1/2) +
        (entryScore [SR.mk "A" "cg" (4/5) "text" "graph"] "A").getD 0 * (3/10) +
        (entryScore ([] : List SR) "A").getD 0 * (1/5)) :=
  fuseResults_additive (1/2) (3/10) (1/5)
    [SR.mk "A" "ca" (1/2) "text" "vector"]
    [SR.mk "A" "cg" (4/5) "text" "graph"] ([] : List SR) "A"
    (by simp) (by simp) (by simp) (Or.inl (by simp))

/-- C7 counterexample. A chunk found by both vector and keyword keeps
`source = "vector"`: the keyword merge branch of `_fuse_results` never
touches the `source` field, so no `"+keyword"` (or any keyword marker) is
ever concatenated, contradicting the claim that every contributing strategy
is named. -/
theorem fuseResults_keyword_source_dropped :
    (fuseResults (1/2) (3/10) (1/5) [SR.mk "A" "ca" (1/2) "text" "vector"] []
      [SR.mk "A" "ca" (1/4) "text" "keyword"]).map (fun r => (r.id, r.source)) =
      [("A", "vector")] ∧ ("vector" : String) ≠ "vector+keyword" :=
  ⟨by rfl, by simp⟩

/-- C7 amended.  Source tagging in `_fuse_results` is asymmetric: (1) a chunk
found by both vector and graph (with differing source tags) gets
`source = "<vector source>+graph"`; (2) a keyword contribution sums into the
score but never alters the `source` field, so a chunk found by vector and
keyword (but not graph) keeps the vector result's source unchanged. -/
theorem fuseResults_source_tagging :
    (∀ (wV wG wK : ℚ) (vrs grs krs : List SR) (x : String) (rv rg : SR),
      (vrs.map (·.id)).Nodup → (grs.map (·.id)).Nodup → (krs.map (·.id)).Nodup →
      strategyEntry vrs x = some rv → strategyEntry grs x = some rg →
      rv.source ≠ rg.source →
      entrySource (fuseResults wV wG wK vrs grs krs) x =
        some (rv.source ++ "+graph")) ∧
    (∀ (wV wG wK : ℚ) (vrs grs krs : List SR) (x : String) (rv : SR),
      (vrs.map (·.id)).Nodup → (grs.map (·.id)).Nodup → (krs.map (·.id)).Nodup →
      strategyEntry vrs x = some rv → strategyEntry grs x = none →
      entrySource (fuseResults wV wG wK vrs grs krs) x = some rv.source) := by
  constructor
  · intro wV wG wK vrs grs krs x rv rg hv hg hk hve hge hsrc
    simp only [entrySource]
    rw [fuseResults_entry, fuseMapFind_keyword _ _ _ _ hk, fuseMapFind_graph _ _ _ _ hg,
      fuseMapFind_vector _ _ _ hv, hve, hge]
    cases hke : strategyEntry krs x with
    | none => simp [hsrc]
    | some rk => simp [hsrc]
  · intro wV wG wK vrs grs krs x rv hv hg hk hve hge
    simp only [entrySource]
    rw [fuseResults_entry, fuseMapFind_keyword _ _ _ _ hk, fuseMapFind_graph _ _ _ _ hg,
      fuseMapFind_vector _ _ _ hv, hve, hge]
    cases hke : strategyEntry krs x with
    | none => simp
    | some rk => simp

/-- C7 witness: a vector+graph chunk is tagged `"vector+graph"`; a
vector+keyword chunk keeps `"vector"`. -/
theorem fuseResults_source_tagging_witness :
    entrySource (fuseResults (1/2) (3/10) (1/5)
      [SR.mk "A" "ca" (1/2) "text" "vector"]
      [SR.mk "A" "cg" (4/5) "text" "graph"] ([] : List SR)) "A" =
      some ("vector" ++ "+graph") ∧
    entrySource (fuseResults (1/2) (3/10) (1/5)
      [SR.mk "A" "ca" (1/2) "text" "vector"] ([] : List SR)
      [SR.mk "A" "ca" (1/4) "text" "keyword"]) "A" = some "vector" := by
  constructor
  · exact fuseResults_source_tagging.1 (1/2) (3/10) (1/5)
      [SR.mk "A" "ca" (1/2) "text" "vector"]
      [SR.mk "A" "cg" (4/5) "text" "graph"] ([] : List SR) "A"
      (SR.mk "A" "ca" (1/2) "text" "vector") (SR.mk "A" "cg" (4/5) "text" "graph")
      (by simp) (by simp) (by simp) (by rfl) (by rfl) (by simp)
  · exact fuseResults_source_tagging.2 (1/2) (3/10) (1/5)
      [SR.mk "A" "ca" (1/2) "text" "vector"] ([] : List SR)
      [SR.mk "A" "ca" (1/4) "text" "keyword"] "A"
      (SR.mk "A" "ca" (1/2) "text" "vector")
      (by simp) (by simp) (by simp) (by rfl) (by rfl)

/-- C9. If the graph store's entity lookup raises during a hybrid search, the
`try/except` of `_graph_search` turns the error into an empty graph result
list, the graph filter is bypassed, and the overall search completes with the
fusion of the remaining strategies' results (keyword is identically empty in
`HybridSearchEngine._keyword_search`). -/
theorem graphFailure_degrades (useGraphFilter : Bool) (wV wG wK : ℚ) (topK : Nat)
    (vectorResults : List SR)
    (fe : List String → Except String (List GEntity))
    (fr : List String → Except String (List ChunkRow))
    (store : List ChunkRec) (queryText : String) (msg : String)
    (hfe : ∀ ns, fe ns = Except.error msg) :
    hybridGraphSearch fe fr store queryText = [] ∧
    hybridSearchRun useGraphFilter wV wG wK topK vectorResults fe fr store queryText =
      (fuseResults wV wG wK vectorResults [] []).take topK := by
  have hgs : hybridGraphSearch fe fr store queryText = [] := by
    unfold hybridGraphSearch
    by_cases hc : (hybridCandidates queryText).isEmpty
    · simp [hc]
    · simp [hc, hfe (hybridCandidates queryText), errorBind]
  refine ⟨hgs, ?_⟩
  unfold hybridSearchRun hybridSearchPipeline
  rw [hgs]
  simp [graphFilterStep]

/-- C9 witness: a graph client whose entity lookup always raises. -/
theorem graphFailure_degrades_witness :
    hybridGraphSearch (fun _ => Except.error "connection reset")
      (fun _ => Except.ok []) [] "Tell me about Bob" = [] ∧
    hybridSearchRun true (1/2) (3/10) (1/5) 5 [SR.mk "A" "ca" (1/2) "text" "vector"]
      (fun _ => Except.error "connection reset") (fun _ => Except.ok []) []
      "Tell me about Bob" =
      (fuseResults (1/2) (3/10) (1/5) [SR.mk "A" "ca" (1/2) "text" "vector"] [] []).take 5 :=
  graphFailure_degrades true (1/2) (3/10) (1/5) 5
    [SR.mk "A" "ca" (1/2) "text" "vector"]
    (fun _ => Except.error "connection reset") (fun _ => Except.ok []) []
    "Tell me about Bob" "connection reset" (fun _ => rfl)

/-! ### Relevance-map lemmas (graph strategy, claim C1) -/

/-- Last-write-wins characterization of the dict comprehension
`relevance_map = {c['chunk_id']: c['relevance'] for c in related_chunks}`:
the remembered relevance for a chunk is the one from its *last* row. -/
theorem relevanceMapAux_find (rows : List ChunkRow) (m : List (String × ℚ)) (x : String) :
    dictFind (rows.foldl (fun m r => dictInsert m r.chunkId r.relevance) m) x =
      match (rows.filter (fun r => r.chunkId == x)).getLast? with
      | some r => some r.relevance
      | none => dictFind m x := by
  induction rows generalizing m with
  | nil => simp
  | cons r t ih =>
    rw [List.foldl_cons, List.filter_cons]
    cases hr : r.chunkId == x with
    | true =>
      have hrx : r.chunkId = x := by simpa using hr
      simp only [if_pos]
      rw [ih]
      cases hft : t.filter (fun r => r.chunkId == x) with
      | nil =>
        simp only [List.getLast?_singleton, List.getLast?_nil]
        rw [hrx, dictFind_insert_self]
      | cons r2 t2 =>
        rw [List.getLast?_cons_cons, ← hft]
        cases hlast : (t.filter (fun r => r.chunkId == x)).getLast? with
        | none =>
          exfalso
          rw [hft] at hlast
          cases t2 <;> simp [List.getLast?] at hlast
        | some r3 => rfl
    | false =>
      simp only [Bool.false_eq_true, if_neg, not_false_eq_true]
      rw [ih]
      cases hlast : (t.filter (fun r => r.chunkId == x)).getLast? with
      | none =>
        have hxr : x ≠ r.chunkId := fun he => by simp [he] at hr
        rw [dictFind_insert_ne _ _ _ _ hxr]
      | some r3 => rfl

theorem relevanceMap_find (rows : List ChunkRow) (x : String) :
    dictFind (relevanceMap rows) x =
      match (rows.filter (fun r => r.chunkId == x)).getLast? with
      | some r => some r.relevance
      | none => none :=
  relevanceMapAux_find rows [] x

/-- `getLast?` produces a member of the list. -/
theorem getLastMem {l : List α} {a : α} (h : l.getLast? = some a) : a ∈ l := by
  induction l with
  | nil => simp at h
  | cons b t ih =>
    cases t with
    | nil =>
      simp only [List.getLast?_singleton, Option.some.injEq] at h
      simp [h]
    | cons c t2 =>
      rw [List.getLast?_cons_cons] at h
      exact List.mem_cons_of_mem b (ih h)

/-- In a descending-sorted row list, the last element has the minimum
relevance. -/
theorem pairwise_getLast_min (l : List ChunkRow) (b : ChunkRow)
    (hp : l.Pairwise (fun p q => (decide (q.relevance ≤ p.relevance)) = true))
    (hb : l.getLast? = some b) : ∀ r ∈ l, b.relevance ≤ r.relevance := by
  induction l with
  | nil => simp at hb
  | cons c t ih =>
    rcases List.pairwise_cons.mp hp with ⟨hct, ht⟩
    cases t with
    | nil =>
      simp only [List.getLast?_singleton, Option.some.injEq] at hb
      subst hb
      intro r hr
      rcases List.mem_singleton.mp hr with rfl
      exact le_refl _
    | cons d t2 =>
      rw [List.getLast?_cons_cons] at hb
      intro r hr
      rcases List.mem_cons.mp hr with rfl | hrt
      · have hbmem : b ∈ d :: t2 := getLastMem hb
        simpa using hct b hbmem
      · exact ih ht hb r hrt

/-- The rows returned by `find_related_chunks` are ordered by relevance
descending (`ORDER BY relevance DESC`, stable). -/
theorem findRelatedChunks_pairwise (db : GraphDB) (entityIds : List String)
    (maxDepth limit : Nat) :
    (findRelatedChunks db entityIds maxDepth limit).Pairwise
      (fun p q => (decide (q.relevance ≤ p.relevance)) = true) := by
  unfold findRelatedChunks
  by_cases he : entityIds.isEmpty
  · simp [he]
  · simp only [he, Bool.false_eq_true, if_neg, not_false_eq_true]
    refine List.Pairwise.sublist (List.take_sublist _ _) ?_
    refine pySorted_pairwise _ ?_ ?_ _
    · intro a b c hab hbc
      simp only [decide_eq_true_eq] at *
      exact le_trans hbc hab
    · intro a b
      simp only [decide_eq_true_eq]
      exact le_total b.relevance a.relevance

/-! ## Claim theorems (graph strategy) -/

/-- C1 counterexample.  In the graph `Alice—Bob—Carol` where Bob and Carol
both carry source chunk `X`, traversal from Alice reaches `X` at distance 1
(relevance 0.8, via Bob) and at distance 2 (relevance 0.5, via Carol).  The
rows come back ordered by relevance descending, the dict comprehension in
`_graph_search` lets later rows overwrite earlier ones, and the chunk's
result is scored 0.5 — not the maximum 0.8 the claim asserts. -/
theorem graphRelevance_not_max :
    findRelatedChunks
      ⟨[⟨"A", "Alice", "Person", none⟩, ⟨"B", "Bob", "Person", some "X"⟩,
        ⟨"C", "Carol", "Person", some "X"⟩], [⟨"A", "B"⟩, ⟨"B", "C"⟩]⟩
      ["A"] 2 20 =
      [⟨"X", "Bob", "Person", mkRat 4 5⟩, ⟨"X", "Carol", "Person", mkRat 1 2⟩] ∧
    hybridGraphSearch
      (dbFindEntities ⟨[⟨"A", "Alice", "Person", none⟩, ⟨"B", "Bob", "Person", some "X"⟩,
        ⟨"C", "Carol", "Person", some "X"⟩], [⟨"A", "B"⟩, ⟨"B", "C"⟩]⟩)
      (dbFindRelated ⟨[⟨"A", "Alice", "Person", none⟩, ⟨"B", "Bob", "Person", some "X"⟩,
        ⟨"C", "Carol", "Person", some "X"⟩], [⟨"A", "B"⟩, ⟨"B", "C"⟩]⟩)
      [⟨"X", "bob chunk", "text"⟩] "Tell me about Alice" =
      [⟨"X", "bob chunk", mkRat 1 2, "text", "graph"⟩] ∧
    (mkRat 1 2 : ℚ) ≠ mkRat 4 5 :=
  ⟨rfl, rfl, by norm_num [Rat.mkRat_eq_div]⟩

/-- C1 amended.  When the same chunk is reachable via multiple paths, the
relevance assigned by `_graph_search`'s `relevance_map` is the one of the
chunk's *last* row; because `find_related_chunks` orders rows by relevance
descending, that is the *minimum* relevance observed over all paths (within
the row limit), not the maximum. -/
theorem graphRelevance_is_min (db : GraphDB) (entityIds : List String)
    (maxDepth limit : Nat) (x : String)
    (hx : (findRelatedChunks db entityIds maxDepth limit).filter
      (fun r => r.chunkId == x) ≠ []) :
    ∃ m : ℚ,
      dictFind (relevanceMap (findRelatedChunks db entityIds maxDepth limit)) x = some m ∧
      (∃ r ∈ findRelatedChunks db entityIds maxDepth limit,
        r.chunkId = x ∧ r.relevance = m) ∧
      (∀ r ∈ findRelatedChunks db entityIds maxDepth limit,
        r.chunkId = x → m ≤ r.relevance) := by
  cases hlast : ((findRelatedChunks db entityIds maxDepth limit).filter
      (fun r => r.chunkId == x)).getLast? with
  | none =>
    exfalso
    cases hf : (findRelatedChunks db entityIds maxDepth limit).filter
        (fun r => r.chunkId == x) with
    | nil => exact hx hf
    | cons a t =>
      rw [hf] at hlast
      cases t <;> simp [List.getLast?] at hlast
  | some rlast =>
    refine ⟨rlast.relevance, ?_, ?_, ?_⟩
    · rw [relevanceMap_find, hlast]
    · have hmem := getLastMem hlast
      rw [List.mem_filter] at hmem
      exact ⟨rlast, hmem.1, by simpa using hmem.2, rfl⟩
    · intro r hr hrx
      have hpf : ((findRelatedChunks db entityIds maxDepth limit).filter
          (fun r => r.chunkId == x)).Pairwise
          (fun p q => (decide (q.relevance ≤ p.relevance)) = true) :=
        List.Pairwise.sublist (List.filter_sublist _)
          (findRelatedChunks_pairwise db entityIds maxDepth limit)
      have hrmem : r ∈ (findRelatedChunks db entityIds maxDepth limit).filter
          (fun r => r.chunkId == x) :=
        List.mem_filter.mpr ⟨hr, by simpa using hrx⟩
      exact pairwise_getLast_min _ rlast hpf hlast r hrmem

/-- C1 amended witness: in the counterexample graph, chunk `X`'s assigned
relevance 0.5 is the minimum of its observed relevances. -/
theorem graphRelevance_is_min_witness :
    ∃ m : ℚ,
      dictFind (relevanceMap (findRelatedChunks
        ⟨[⟨"A", "Alice", "Person", none⟩, ⟨"B", "Bob", "Person", some "X"⟩,
          ⟨"C", "Carol", "Person", some "X"⟩], [⟨"A", "B"⟩, ⟨"B", "C"⟩]⟩
        ["A"] 2 20)) "X" = some m ∧
      (∃ r ∈ findRelatedChunks
        ⟨[⟨"A", "Alice", "Person", none⟩, ⟨"B", "Bob", "Person", some "X"⟩,
          ⟨"C", "Carol", "Person", some "X"⟩], [⟨"A", "B"⟩, ⟨"B", "C"⟩]⟩
        ["A"] 2 20, r.chunkId = "X" ∧ r.relevance = m) ∧
      (∀ r ∈ findRelatedChunks
        ⟨[⟨"A", "Alice", "Person", none⟩, ⟨"B", "Bob", "Person", some "X"⟩,
          ⟨"C", "Carol", "Person", some "X"⟩], [⟨"A", "B"⟩, ⟨"B", "C"⟩]⟩
        ["A"] 2 20, r.chunkId = "X" → m ≤ r.relevance) :=
  graphRelevance_is_min
    ⟨[⟨"A", "Alice", "Person", none⟩, ⟨"B", "Bob", "Person", some "X"⟩,
      ⟨"C", "Carol", "Person", some "X"⟩], [⟨"A", "B"⟩, ⟨"B", "C"⟩]⟩
    ["A"] 2 20 "X"
    (by
      have heval : (findRelatedChunks
          ⟨[⟨"A", "Alice", "Person", none⟩, ⟨"B", "Bob", "Person", some "X"⟩,
            ⟨"C", "Carol", "Person", some "X"⟩], [⟨"A", "B"⟩, ⟨"B", "C"⟩]⟩
          ["A"] 2 20).filter (fun r => r.chunkId == "X") =
          [⟨"X", "Bob", "Person", mkRat 4 5⟩, ⟨"X", "Carol", "Person", mkRat 1 2⟩] := rfl
      rw [heval]
      simp)

/-! ### Tokenization lemmas (claim C5) -/

/-- Every character of every word produced by the splitter comes from the
accumulator or from the input. -/
theorem splitWordsAux_chars (cs : List Char) (cur : List Char) :
    ∀ w ∈ splitWordsAux cur cs, ∀ ch ∈ w, ch ∈ cur ∨ ch ∈ cs := by
  induction cs generalizing cur with
  | nil =>
    intro w hw ch hch
    by_cases hc : cur.isEmpty
    · simp [splitWordsAux, hc] at hw
    · simp only [splitWordsAux, hc, Bool.false_eq_true, if_neg, not_false_eq_true,
        List.mem_singleton] at hw
      subst hw
      exact Or.inl hch
  | cons c rest ih =>
    intro w hw ch hch
    by_cases hws : c.isWhitespace
    · by_cases hc : cur.isEmpty
      · simp only [splitWordsAux, hws, if_pos, hc] at hw
        rcases ih [] w hw ch hch with h | h
        · simp at h
        · exact Or.inr (List.mem_cons_of_mem c h)
      · simp only [splitWordsAux, hws, if_pos, hc, Bool.false_eq_true, if_neg,
          not_false_eq_true, List.mem_cons] at hw
        rcases hw with rfl | hw
        · exact Or.inl hch
        · rcases ih [] w hw ch hch with h | h
          · simp at h
          · exact Or.inr (List.mem_cons_of_mem c h)
    · simp only [splitWordsAux, hws, Bool.false_eq_true, if_neg, not_false_eq_true] at hw
      rcases ih (cur ++ [c]) w hw ch hch with h | h
      · rcases List.mem_append.mp h with h1 | h1
        · exact Or.inl h1
        · rcases List.mem_singleton.mp h1 with rfl
          exact Or.inr (List.mem_cons_self _ _)
      · exact Or.inr (List.mem_cons_of_mem c h)

/-- A scan over words that are all non-candidates emits nothing. -/
theorem extractLoopAux_nil (ws : List (List Char))
    (h : ∀ w ∈ ws, capCandidate w = false) : extractLoopAux [] ws = [] := by
  induction ws with
  | nil => rfl
  | cons w rest ih =>
    have hw : capCandidate w = false := h w (List.mem_cons_self w rest)
    simp only [extractLoopAux, hw, Bool.false_eq_true, if_neg, not_false_eq_true,
      List.isEmpty_nil, if_pos]
    exact ih (fun w hw => h w (List.mem_cons_of_mem _ hw))

/-- Text with no uppercase character yields no candidate entity name under
the capitalization heuristic. -/
theorem extractEntityNames_lowercase (text : String)
    (h : ∀ c ∈ text.data, c.isUpper = false) : extractEntityNames text = [] := by
  have hwords : ∀ w ∈ splitWords text.data, capCandidate w = false := by
    intro w hw
    cases w with
    | nil => rfl
    | cons ch wt =>
      have hch : ch ∈ ([] : List Char) ∨ ch ∈ text.data :=
        splitWordsAux_chars text.data [] (ch :: wt) hw ch (List.mem_cons_self ch wt)
      rcases hch with h1 | h1
      · simp at h1
      · simp [capCandidate, h ch h1]
  have hloop : extractLoop (splitWords text.data) = [] :=
    extractLoopAux_nil _ hwords
  simp [extractEntityNames, hloop, dedupFirst, dedupFirstAux]

/-! ## Claim theorems (entity extraction) -/

/-- C5 counterexample.  The hybrid engine's graph strategy
(`HybridSearchEngine._graph_search`) does not use the §4.1 capitalization
heuristic: its stop-word/length heuristic extracts non-empty candidates from
the all-lowercase query `"what is quantum physics"`, and with a matching
entity in the graph the strategy returns a non-empty result list. -/
theorem lowercaseQuery_hybrid_not_empty :
    ("what is quantum physics".data.all (fun c => !c.isUpper)) = true ∧
    hybridCandidates "what is quantum physics" =
      ["what is quantum physics", "quantum", "physics"] ∧
    hybridGraphSearch
      (dbFindEntities ⟨[⟨"E1", "quantum physics", "Concept", none⟩,
        ⟨"E2", "bohr", "Person", some "X5"⟩], [⟨"E1", "E2"⟩]⟩)
      (dbFindRelated ⟨[⟨"E1", "quantum physics", "Concept", none⟩,
        ⟨"E2", "bohr", "Person", some "X5"⟩], [⟨"E1", "E2"⟩]⟩)
      [⟨"X5", "bohr chunk", "text"⟩] "what is quantum physics" =
      [⟨"X5", "bohr chunk", mkRat 4 5, "text", "graph"⟩] ∧
    ([⟨"X5", "bohr chunk", mkRat 4 5, "text", "graph"⟩] : List SR) ≠ [] :=
  ⟨rfl, rfl, rfl, by simp⟩

/-- C5 amended.  The capitalization heuristic belongs to the standalone
`GraphSearcher` (`graph_search.py`): for a query containing no uppercase
letter and no explicit entity names, `_extract_entity_names` produces an
empty candidate set and `GraphSearcher.search` returns the empty list.  The
hybrid engine's `_graph_search` uses a different, stop-word-based heuristic
for which this property fails (see the counterexample). -/
theorem lowercaseQuery_graphSearcher_empty (text : String)
    (h : ∀ c ∈ text.data, c.isUpper = false) :
    extractEntityNames text = [] ∧
      ∀ maxResults : Nat, graphSearcherSearch maxResults text none = [] := by
  have hext := extractEntityNames_lowercase text h
  refine ⟨hext, fun maxResults => ?_⟩
  simp [graphSearcherSearch, hext]

/-- C5 amended witness: the all-lowercase query `"hello world"`. -/
theorem lowercaseQuery_graphSearcher_empty_witness :
    extractEntityNames "hello world" = [] ∧
      ∀ maxResults : Nat, graphSearcherSearch maxResults "hello world" none = [] :=
  lowercaseQuery_graphSearcher_empty "hello world" (by decide)

end MMRag
